import Mathlib

/-!
# Verification of the mat64 QR core (qr.go)

A shallow embedding of `src/mat64/qr.go` over exact rationals.

The file models the dense-matrix storage used by the package as a flat
row-major buffer with an explicit stride (`GDense`), mirroring
`blas64.General`.  The four numeric kernels consumed by the core
(`Geqrf`, `Ormqr`, `Trtrs`, `Ger`/`Gemm`) are external collaborators of
the repository; they are modelled from the spec's kernel contracts (§6)
as executable rational-arithmetic functions.  The storage helpers
(`reuseAs`, `Copy`, `getWorkspace`/`putWorkspace`, `Clone`) are code of
the repository that is not under `src/`; they are modelled from the
spec's descriptions of their semantics, as noted on each definition.
-/

/-- A dense matrix in row-major layout with an explicit stride, mirroring
`blas64.General` / `mat64.Dense`: `data` holds `rows` rows of `cols`
entries each, row `i` starting at offset `i * stride`. -/
structure GDense where
  rows : Nat
  cols : Nat
  stride : Nat
  data : List ℚ
  deriving DecidableEq, Repr

/-- Entry accessor: element `(i, j)` lives at flat offset `i*stride + j`.
Out-of-range reads return 0 (they never occur in well-formed uses). -/
def GDense.get (d : GDense) (i j : Nat) : ℚ :=
  d.data.getD (i * d.stride + j) 0

/-- Well-formedness of the flat layout: the stride covers a full row and
the buffer holds exactly `rows` rows. -/
def GDense.WF (d : GDense) : Prop :=
  d.cols ≤ d.stride ∧ d.data.length = d.rows * d.stride

instance (d : GDense) : Decidable d.WF := by
  unfold GDense.WF; infer_instance

/-- In-place elementwise update of the `rows × cols` region of a buffer:
position `(i, j)` becomes `g i j old`; padding between `cols` and
`stride`, and anything beyond `rows*stride`, is left untouched.  All the
in-place kernel writes of qr.go are expressed through this combinator. -/
def GDense.inplaceR (d : GDense) (g : Nat → Nat → ℚ → ℚ) : GDense :=
  { d with
    data := (List.range d.data.length).map fun t =>
      if t / d.stride < d.rows ∧ t % d.stride < d.cols then
        g (t / d.stride) (t % d.stride) (d.data.getD t 0)
      else
        d.data.getD t 0 }

/-- A fresh row-major buffer (`stride = cols`) filled from an entry
function. -/
def mkDense (r c : Nat) (f : Nat → Nat → ℚ) : GDense :=
  ⟨r, c, c, (List.range (r * c)).map fun t => f (t / c) (t % c)⟩

/-- Modelled from the spec: the storage abstraction's "in-place resize
with reuse-or-reallocate semantics" (`Dense.reuseAs`, not under `src/`).
The destination is resized to exactly `r×c`; when its storage already
has that shape it is reused as-is (reuse amortizes allocation and does
not rewrite contents), otherwise fresh zeroed storage is allocated. -/
def reuseAs (d : GDense) (r c : Nat) : GDense :=
  if d.rows = r ∧ d.cols = c ∧ d.data ≠ [] then d
  else ⟨r, c, c, List.replicate (r * c) 0⟩

/-- Modelled from the spec: acquisition of an `r×c` scratch buffer from
the shared workspace pool (`getWorkspace(r, c, false)`, not under
`src/`).  The buffer is not zeroed; its prior contents are an arbitrary
function `stale` of the flat position, which theorems quantify over. -/
def getWorkspace (r c : Nat) (stale : Nat → ℚ) : GDense :=
  ⟨r, c, c, (List.range (r * c)).map stale⟩

/-- Modelled from the spec: `Dense.Copy` semantics (not under `src/`):
copy the overlap of the source into the destination — elements `(i, j)`
with `i < min srcRows dstRows` and `j < min srcCols dstCols` are
overwritten with the source's element, everything else is untouched. -/
def copyInto (dst : GDense) (srcAt : Nat → Nat → ℚ) (sr sc : Nat) : GDense :=
  dst.inplaceR fun i j old => if i < sr ∧ j < sc then srcAt i j else old

theorem length_inplaceR (d : GDense) (g : Nat → Nat → ℚ → ℚ) :
    (d.inplaceR g).data.length = d.data.length := by
  simp [GDense.inplaceR]

theorem inplaceR_rows (d : GDense) (g) : (d.inplaceR g).rows = d.rows := rfl
theorem inplaceR_cols (d : GDense) (g) : (d.inplaceR g).cols = d.cols := rfl
theorem inplaceR_stride (d : GDense) (g) : (d.inplaceR g).stride = d.stride := rfl

theorem WF_inplaceR {d : GDense} (h : d.WF) (g) : (d.inplaceR g).WF := by
  refine ⟨h.1, ?_⟩
  rw [length_inplaceR]
  exact h.2

theorem getD_range_map {N t : Nat} (g : Nat → ℚ) (h : t < N) :
    (((List.range N).map g).getD t 0) = g t := by
  rw [List.getD_eq_getElem?_getD]
  simp [List.getElem?_map, List.getElem?_range, h]

/-- The workhorse: reading an in-region entry of an in-place update. -/
theorem get_inplaceR {d : GDense} (hwf : d.WF) (g : Nat → Nat → ℚ → ℚ)
    {i j : Nat} (hi : i < d.rows) (hj : j < d.cols) :
    (d.inplaceR g).get i j = g i j (d.get i j) := by
  have hjs : j < d.stride := lt_of_lt_of_le hj hwf.1
  have hs : 0 < d.stride := Nat.lt_of_le_of_lt (Nat.zero_le j) hjs
  have hpos : i * d.stride + j < d.data.length := by
    rw [hwf.2]
    calc i * d.stride + j < i * d.stride + d.stride := by omega
      _ = (i + 1) * d.stride := by ring
      _ ≤ d.rows * d.stride := Nat.mul_le_mul_right _ hi
  have hdiv : (i * d.stride + j) / d.stride = i := by
    rw [Nat.add_comm, Nat.add_mul_div_right _ _ hs, Nat.div_eq_of_lt hjs]
    exact Nat.zero_add i
  have hmod : (i * d.stride + j) % d.stride = j := by
    rw [Nat.add_comm, Nat.add_mul_mod_self_right, Nat.mod_eq_of_lt hjs]
  show ((List.range d.data.length).map _).getD (i * (d.inplaceR g).stride + j) 0 = _
  rw [inplaceR_stride, getD_range_map _ hpos, hdiv, hmod]
  simp [hi, hj, GDense.get]

theorem get_mkDense {r c : Nat} (f : Nat → Nat → ℚ) {i j : Nat}
    (hi : i < r) (hj : j < c) : (mkDense r c f).get i j = f i j := by
  have hc : 0 < c := Nat.lt_of_le_of_lt (Nat.zero_le j) hj
  have hpos : i * c + j < r * c := by
    calc i * c + j < i * c + c := by omega
      _ = (i + 1) * c := by ring
      _ ≤ r * c := Nat.mul_le_mul_right _ hi
  have hdiv : (i * c + j) / c = i := by
    rw [Nat.add_comm, Nat.add_mul_div_right _ _ hc, Nat.div_eq_of_lt hj]
    exact Nat.zero_add i
  have hmod : (i * c + j) % c = j := by
    rw [Nat.add_comm, Nat.add_mul_mod_self_right, Nat.mod_eq_of_lt hj]
  show ((List.range (r * c)).map _).getD (i * c + j) 0 = _
  rw [getD_range_map _ hpos, hdiv, hmod]

theorem WF_mkDense (r c : Nat) (f) : (mkDense r c f).WF := by
  constructor
  · exact le_rfl
  · simp [mkDense]

theorem WF_getWorkspace (r c : Nat) (stale) : (getWorkspace r c stale).WF := by
  constructor
  · exact le_rfl
  · simp [getWorkspace]

theorem getWorkspace_rows (r c stale) : (getWorkspace r c stale).rows = r := rfl
theorem getWorkspace_cols (r c stale) : (getWorkspace r c stale).cols = c := rfl

theorem WF_reuseAs {d : GDense} (h : d.WF) (r c : Nat) : (reuseAs d r c).WF := by
  unfold reuseAs
  split
  · exact h
  · exact ⟨le_rfl, by simp⟩

theorem reuseAs_rows (d : GDense) (r c : Nat) : (reuseAs d r c).rows = r := by
  unfold reuseAs
  split
  · next hc => exact hc.1
  · rfl

theorem reuseAs_cols (d : GDense) (r c : Nat) : (reuseAs d r c).cols = c := by
  unfold reuseAs
  split
  · next hc => exact hc.2.1
  · rfl

theorem get_copyInto {dst : GDense} (hwf : dst.WF) (srcAt sr sc)
    {i j : Nat} (hi : i < dst.rows) (hj : j < dst.cols) :
    (copyInto dst srcAt sr sc).get i j =
      if i < sr ∧ j < sc then srcAt i j else dst.get i j :=
  get_inplaceR hwf _ hi hj

/-! ### The numeric kernels (external collaborators, modelled from the spec §6) -/

/-- Sum of `f` over `0, …, n-1`; used to express the kernels' dot products. -/
def sumR (n : Nat) (f : Nat → ℚ) : ℚ :=
  ∑ l ∈ Finset.range n, f l

/-- Modelled from the spec: the rank-1 update kernel `blas64.Ger`
(external): `A += α·x·yᵗ`, in place on the `rows × cols` region. -/
def gerFlat (α : ℚ) (x y : Nat → ℚ) (A : GDense) : GDense :=
  A.inplaceR fun i j old => old + α * x i * y j

/-- Modelled from the spec: the general matrix-multiply kernel
`blas64.Gemm` (external) with no transposes: `C := α·A·B + β·C`, in
place on C's `rows × cols` region, contracting over `A.cols`. -/
def gemmFlat (α : ℚ) (A B : GDense) (β : ℚ) (C : GDense) : GDense :=
  C.inplaceR fun i j old =>
    α * sumR A.cols (fun l => A.get i l * B.get l j) + β * old

/-- Back-substitution rows for an upper-triangular system `T·x = b` on
indices `< N`: `backRows T b N t = [x_(N-t), …, x_(N-1)]`. -/
def backRows (T : Nat → Nat → ℚ) (b : Nat → ℚ) (N : Nat) : Nat → List ℚ
  | 0 => []
  | t + 1 =>
    let acc := backRows T b N t
    let i := N - (t + 1)
    (b i - sumR t (fun idx => T i (i + 1 + idx) * acc.getD idx 0)) / T i i :: acc

/-- Forward-substitution rows for the transposed system `Tᵗ·x = b`
(`T` upper-triangular) on indices `< N`: `fwdRows T b t = [x_0, …, x_(t-1)]`. -/
def fwdRows (T : Nat → Nat → ℚ) (b : Nat → ℚ) : Nat → List ℚ
  | 0 => []
  | t + 1 =>
    let acc := fwdRows T b t
    acc ++ [(b t - sumR t (fun l => T l t * acc.getD l 0)) / T t t]

/-- The mathematical solution the triangular-solve kernel writes back:
component `i < N` of the solution of `T·x = b` (`trans = false`) or
`Tᵗ·x = b` (`trans = true`), `T` upper-triangular with entries taken
from the accessor `T` on the diagonal-and-above region only. -/
def triSol (trans : Bool) (T : Nat → Nat → ℚ) (N : Nat) (b : Nat → ℚ) (i : Nat) : ℚ :=
  if trans then (fwdRows T b N).getD i 0
  else (backRows T b N N).getD i 0

/-- The kernel's singularity check of `lapack64.Trtrs` (external,
modelled from the spec): the solve is refused exactly when some
diagonal entry of the `N×N` triangular factor is zero. -/
def hasZeroDiag (T : GDense) (N : Nat) : Bool :=
  (List.range N).any fun i => decide (T.get i i = 0)

/-- The in-place overwrite the triangular-solve kernel performs on
success: the first `N` rows of `X` become the solution columns. -/
def trtrsApply (trans : Bool) (Tsrc : GDense) (N : Nat) (X : GDense) : GDense :=
  X.inplaceR fun i j old =>
    if i < N then triSol trans Tsrc.get N (fun l => X.get l j) i else old

/-- Modelled from the spec: the triangular-solve kernel `lapack64.Trtrs`
(external): reports a singularity condition (`none`) when the `N×N`
upper-triangular factor read from `Tsrc` has a zero diagonal entry;
otherwise overwrites the first `N` rows of `X` in place with the
solution of `T·X = B` (or `Tᵗ·X = B` if `trans`). -/
def trtrsFlat (trans : Bool) (Tsrc : GDense) (N : Nat) (X : GDense) : Option GDense :=
  if hasZeroDiag Tsrc N then none
  else some (trtrsApply trans Tsrc N X)

/-! ### The QR representation and the elementary reflectors -/

/-- The QR representation (`type QR struct` in qr.go): the factored
matrix (compact Householder form) and the reflector scalars. -/
structure QR where
  qr : GDense
  tau : List ℚ
  deriving DecidableEq, Repr

/-- The defining vector of reflector `i`: zero above index `i`, one at
index `i`, and the sub-diagonal entries of column `i` of the factor
below index `i`. -/
def vRefl (rep : QR) (i : Nat) : Nat → ℚ := fun j =>
  if j < i then 0 else if j = i then 1 else rep.qr.get j i

/-- Reflector `i` as an explicit matrix: `H_i = I − τ_i · v_i · v_iᵗ`. -/
def Hm (rep : QR) (i : Nat) : Matrix (Fin rep.qr.rows) (Fin rep.qr.rows) ℚ :=
  1 - rep.tau.getD i 0 •
    Matrix.vecMulVec (fun a : Fin rep.qr.rows => vRefl rep i a)
      (fun b : Fin rep.qr.rows => vRefl rep i b)

/-- The orthogonal factor encoded by the representation, as the
ascending product of the elementary reflectors:
`Q = H_0 · H_1 ⋯ H_(k-1)`, `k = min(m, n)` (the convention of the
factorization kernel `Geqrf`). -/
def Qm (rep : QR) : Matrix (Fin rep.qr.rows) (Fin rep.qr.rows) ℚ :=
  (((List.range (min rep.qr.rows rep.qr.cols)).map fun i => Hm rep i)).prod

/-- Entry accessor for `Q` (or `Qᵗ` when `trans`) on plain naturals. -/
def QmF (rep : QR) (trans : Bool) : Nat → Nat → ℚ := fun i j =>
  if h : i < rep.qr.rows ∧ j < rep.qr.rows then
    if trans then Qm rep ⟨j, h.2⟩ ⟨i, h.1⟩ else Qm rep ⟨i, h.1⟩ ⟨j, h.2⟩
  else 0

/-- Modelled from the spec: the apply-reflectors kernel
`lapack64.Ormqr` with `side = Left` (external): left-multiplies the
target in place by the orthogonal factor of the representation (by its
transpose when `trans`), writing the factor's `rows` rows, without
materializing `Q`. -/
def ormqrFlat (trans : Bool) (rep : QR) (X : GDense) : GDense :=
  X.inplaceR fun i j old =>
    if i < rep.qr.rows then
      sumR rep.qr.rows (fun l => QmF rep trans i l * X.get l j)
    else old

/-! ### The operations of qr.go -/

/-- `Dense.RFromQR`: resize the destination to the factor's `r×c` shape
and copy the upper-triangular disguise of the factor (`TriDense` with
`N = c`, `Upper`, `NonUnit`, aliasing the factor's data and stride)
into it. -/
def RFromQR (rep : QR) (m : GDense) : GDense :=
  let r := rep.qr.rows
  let c := rep.qr.cols
  let m1 := reuseAs m r c
  copyInto m1 (fun i j => if i ≤ j then rep.qr.get i j else 0) c c

/-- One iteration of `QFromQR`'s reflector loop, on the state
`(m, qCopy)`: reset `h` to the identity, build the reflector vector,
`blas64.Ger(-tau[i], v, v, h)`, `qCopy.Copy(m)`, then
`blas64.Gemm(NoTrans, NoTrans, 1, qCopy, h, 0, m)`. -/
def qStep (rep : QR) (st : GDense × GDense) (i : Nat) : GDense × GDense :=
  let r := rep.qr.rows
  let h0 := mkDense r r (fun a b => if a = b then 1 else 0)
  let v := vRefl rep i
  let h := gerFlat (-(rep.tau.getD i 0)) v v h0
  let qc := copyInto st.2 (fun a b => st.1.get a b) st.1.rows st.1.cols
  let m := gemmFlat 1 qc h 0 st.1
  (m, qc)

/-- `Dense.QFromQR`: resize the destination to `m×m`, set it to the
identity by explicit element assignment, then accumulate the
elementary reflectors in ascending index order.  Returned alongside the
result are the workspace-pool acquisition and release counts of the
call: `qCopy := getWorkspace(r, r, false)` is the sole acquisition, and
the function returns without a matching `putWorkspace`. -/
def QFromQR (rep : QR) (m : GDense) (stale : Nat → ℚ) : GDense × Nat × Nat :=
  let r := rep.qr.rows
  let c := rep.qr.cols
  let m0 := reuseAs m r r
  let m1 := m0.inplaceR fun i j _ => if i = j then 1 else 0
  let k := min r c
  let res := (List.range k).foldl (qStep rep) (m1, getWorkspace r r stale)
  (res.1, 1, 0)

/-- The recoverable error of the solver: `Condition(math.Inf(1))`, a
`Condition` error carrying the sentinel value +∞. -/
inductive QRError where
  | conditionInf
  deriving DecidableEq, Repr

/-- `x := getWorkspace(max(r,c), bc, false)` followed by `x.Copy(b)`:
the scratch buffer the solve works in. -/
def solveScratch (rep : QR) (b : GDense) (stale : Nat → ℚ) : GDense :=
  copyInto (getWorkspace (max rep.qr.rows rep.qr.cols) b.cols stale)
    b.get b.rows b.cols

/-- The trans-dependent core of `Dense.SolveQR`, after the shape check
and destination sizing: `x := getWorkspace(max(r,c), bc, false)`,
`x.Copy(b)`, then the branch-dependent kernel sequence, the copy-back
into the destination and the pool release.  The second and third
components of the result are the pool acquisition and release counts
(the error returns skip `putWorkspace(x)`). -/
def solveCore (rep : QR) (trans : Bool) (b m1 : GDense) (stale : Nat → ℚ) :
    Except QRError GDense × Nat × Nat :=
  let r := rep.qr.rows
  let c := rep.qr.cols
  let x1 := solveScratch rep b stale
  if trans then
    match trtrsFlat true rep.qr c x1 with
    | none => (.error .conditionInf, 1, 0)
    | some x2 =>
      let x3 := x2.inplaceR fun i _ old => if c ≤ i ∧ i < r then 0 else old
      let x4 := ormqrFlat false rep x3
      (.ok (copyInto m1 x4.get x4.rows x4.cols), 1, 1)
  else
    let x2 := ormqrFlat true rep x1
    match trtrsFlat false rep.qr c x2 with
    | none => (.error .conditionInf, 1, 0)
    | some x3 => (.ok (copyInto m1 x3.get x3.rows x3.cols), 1, 1)

/-- `Dense.SolveQR`, faithful to the source's control flow: `none`
models `panic(ErrShape)` on a row-count mismatch of the right-hand
side; otherwise the destination is resized to `(r if trans else c) ×
bc` and the core runs.  `stale` is the arbitrary prior content of the
pooled scratch buffer. -/
def SolveQR (rep : QR) (trans : Bool) (b m : GDense) (stale : Nat → ℚ) :
    Option (Except QRError GDense × Nat × Nat) :=
  let r := rep.qr.rows
  let c := rep.qr.cols
  let br := b.rows
  let bc := b.cols
  if trans then
    if c ≠ br then none
    else some (solveCore rep true b (reuseAs m r bc) stale)
  else
    if r ≠ br then none
    else some (solveCore rep false b (reuseAs m c bc) stale)

/-- A vector, mirroring `mat64.Vector` over `blas64.Vector`: `n`
elements at increment `inc`. -/
structure GVec where
  n : Nat
  inc : Nat
  data : List ℚ
  deriving DecidableEq, Repr

/-- `vecAsDense`: the vector reinterpreted as an `n×1` dense matrix
sharing the same underlying data, the stride taken from the vector's
increment. -/
def vecAsDense (v : GVec) : GDense :=
  ⟨v.n, 1, v.inc, v.data⟩

/-- Modelled from the spec: `Vector.reuseAs` (not under `src/`): resize
to `n` elements, reusing the storage when already that size, otherwise
allocating fresh zeroed storage with unit increment. -/
def vreuseAs (v : GVec) (n : Nat) : GVec :=
  if v.n = n ∧ v.data ≠ [] then v
  else ⟨n, 1, List.replicate n 0⟩

/-- `Vector.SolveQRVec`: resize the destination vector to `r` (if
`trans`) or `c`, recast destination and right-hand side as
single-column `Dense` via `vecAsDense` and delegate to `SolveQR`. -/
def SolveQRVec (rep : QR) (trans : Bool) (b v : GVec) (stale : Nat → ℚ) :
    Option (Except QRError GDense × Nat × Nat) :=
  let r := rep.qr.rows
  let c := rep.qr.cols
  let v1 := vreuseAs v (if trans then r else c)
  let m := vecAsDense v1
  let bm := vecAsDense b
  SolveQR rep trans bm m stale

/-! ### A buffer-heap view for the factorization's frame property -/

/-- A heap of flat buffers; buffer identity is the index into `bufs`.
This view makes explicit which storage an operation writes. -/
structure Heap where
  bufs : List (List ℚ)
  deriving DecidableEq, Repr

def Heap.read (h : Heap) (i : Nat) : List ℚ := h.bufs.getD i []

def Heap.write (h : Heap) (i : Nat) (d : List ℚ) : Heap := ⟨h.bufs.set i d⟩

/-- Allocate a fresh buffer; returns the heap and the new buffer's id. -/
def Heap.alloc (h : Heap) (d : List ℚ) : Heap × Nat :=
  (⟨h.bufs ++ [d]⟩, h.bufs.length)

/-- A dense matrix whose storage lives in the heap. -/
structure DRef where
  rows : Nat
  cols : Nat
  buf : Nat
  deriving DecidableEq, Repr

/-- `QR.Factorize` over the heap view: `panic(ErrShape)` (`none`) iff
`m < n`; otherwise `qr.qr.Clone(a)` allocates fresh storage holding a
copy of `a`'s data and the factorization kernel overwrites the clone in
place, producing the reflector scalars.  `geqrf` is the external
`lapack64.Geqrf` kernel, kept abstract as a parameter (the source's
two-phase workspace-size query then compute is a property internal to
the kernel).  Returns the heap, the factored matrix and `tau`. -/
def Factorize (geqrf : List ℚ → Nat → Nat → List ℚ × List ℚ)
    (h : Heap) (a : DRef) : Option (Heap × DRef × List ℚ) :=
  if a.rows < a.cols then none
  else
    let p := h.alloc (h.read a.buf)
    let q := geqrf (p.1.read p.2) a.rows a.cols
    some (p.1.write p.2 q.1, ⟨a.rows, a.cols, p.2⟩, q.2)

/-! ### Spec-side description of the solve (for the refinement claim) -/

/-- Written from the spec's words (§4.4): the scratch holds a copy of
`B` in an independently-owned `max(m,n) × cols(B)` buffer (fresh
storage, hence zero beyond `B`'s rows). -/
def specScratch (B : GDense) : Nat → Nat → ℚ := fun i j =>
  if i < B.rows ∧ j < B.cols then B.get i j else 0

/-- Written from the spec's words (§4.4), not from the source.
Non-transposed case: apply the orthogonal factor's transpose to the
scratch (`Qᵗ·B`), then triangular-solve `R·X = (first n rows of Qᵗ·B)`.
Transposed case: triangular-solve `Rᵗ·X′ = B`, zero-extend `X′` with
`m−n` zero rows, then left-multiply by the orthogonal factor (not its
transpose).  A singular `R` is reported by the triangular-solve kernel
and surfaces as the `Condition(+∞)` error. -/
def specSolveQR (rep : QR) (trans : Bool) (B : GDense) :
    Except QRError (Nat → Nat → ℚ) :=
  let r := rep.qr.rows
  let c := rep.qr.cols
  if hasZeroDiag rep.qr c then .error .conditionInf
  else if trans then
    .ok fun i j =>
      sumR r fun l => QmF rep false i l *
        (if l < c then triSol true rep.qr.get c (fun t => specScratch B t j) l else 0)
  else
    .ok fun i j =>
      triSol false rep.qr.get c
        (fun t => sumR r fun l => QmF rep true t l * specScratch B l j) i

/-! ### Small facts about the kernels -/

theorem hasZeroDiag_iff (T : GDense) (N : Nat) :
    hasZeroDiag T N = true ↔ ∃ i < N, T.get i i = 0 := by
  simp [hasZeroDiag, List.any_eq_true, List.mem_range]

theorem sumR_congr {n : Nat} {f g : Nat → ℚ} (h : ∀ l < n, f l = g l) :
    sumR n f = sumR n g := by
  unfold sumR
  exact Finset.sum_congr rfl fun l hl => h l (Finset.mem_range.mp hl)

theorem backRows_congr (T : Nat → Nat → ℚ) {b1 b2 : Nat → ℚ} (N : Nat)
    (h : ∀ l < N, b1 l = b2 l) :
    ∀ t, t ≤ N → backRows T b1 N t = backRows T b2 N t := by
  intro t
  induction t with
  | zero => intro _; rfl
  | succ t ih =>
    intro ht
    have hacc := ih (Nat.le_of_succ_le ht)
    simp only [backRows, hacc, h (N - (t + 1)) (by omega)]

theorem fwdRows_congr (T : Nat → Nat → ℚ) {b1 b2 : Nat → ℚ} (N : Nat)
    (h : ∀ l < N, b1 l = b2 l) :
    ∀ t, t ≤ N → fwdRows T b1 t = fwdRows T b2 t := by
  intro t
  induction t with
  | zero => intro _; rfl
  | succ t ih =>
    intro ht
    have hacc := ih (Nat.le_of_succ_le ht)
    simp only [fwdRows, hacc, h t (by omega)]

theorem triSol_congr (trans : Bool) (T : Nat → Nat → ℚ) (N : Nat)
    {b1 b2 : Nat → ℚ} (h : ∀ l < N, b1 l = b2 l) (i : Nat) :
    triSol trans T N b1 i = triSol trans T N b2 i := by
  unfold triSol
  rw [backRows_congr T N h N le_rfl, fwdRows_congr T N h N le_rfl]

/-! ### C3: shape violations are panics, and exactly at the documented shapes -/

/-- C3: `Factorize` panics (`none`) iff its input has `m < n`, and for
`m ≥ n` it completes with no error channel or singularity check (its
result type has no error component); `SolveQR` panics iff the row count
of `B` differs from `n` when `trans` and from `m` otherwise. -/
theorem shape_violation_iff :
    (∀ (geqrf : List ℚ → Nat → Nat → List ℚ × List ℚ) (h : Heap) (a : DRef),
        Factorize geqrf h a = none ↔ a.rows < a.cols) ∧
    (∀ (rep : QR) (trans : Bool) (b m : GDense) (stale : Nat → ℚ),
        SolveQR rep trans b m stale = none ↔
          b.rows ≠ (if trans then rep.qr.cols else rep.qr.rows)) := by
  constructor
  · intro geqrf h a
    by_cases hc : a.rows < a.cols
    · simp [Factorize, hc]
    · simp [Factorize, hc]
  · intro rep trans b m stale
    cases trans
    · by_cases hc : rep.qr.rows = b.rows
      · simp [SolveQR, hc]
      · simp [SolveQR, hc, Ne.symm hc]
    · by_cases hc : rep.qr.cols = b.rows
      · simp [SolveQR, hc]
      · simp [SolveQR, hc, Ne.symm hc]

/-! ### C10: Factorize never writes the caller's matrix -/

/-- C10: for any behaviour of the factorization kernel, `Factorize`
leaves the caller's matrix unchanged: the kernel overwrites a private
clone (a freshly allocated buffer), never the caller's storage. -/
theorem Factorize_preserves_caller
    (geqrf : List ℚ → Nat → Nat → List ℚ × List ℚ) (h : Heap) (a : DRef)
    (h' : Heap) (qrm : DRef) (tau : List ℚ)
    (ha : a.buf < h.bufs.length)
    (hfac : Factorize geqrf h a = some (h', qrm, tau)) :
    h'.read a.buf = h.read a.buf ∧ qrm.buf ≠ a.buf := by
  unfold Factorize at hfac
  split at hfac
  · exact absurd hfac (by simp)
  · simp only [Heap.alloc, Option.some.injEq, Prod.mk.injEq] at hfac
    obtain ⟨hh, hq, -⟩ := hfac
    subst hh
    constructor
    · simp only [Heap.read, Heap.write]
      rw [List.getD_eq_getElem?_getD,
        List.getElem?_set_ne (by omega), ← List.getD_eq_getElem?_getD]
      exact List.getD_append _ _ _ _ ha
    · rw [← hq]
      show h.bufs.length ≠ a.buf
      omega

/-- A trivial instantiation of the abstract factorization kernel, used
only to witness the hypotheses of the frame theorem. -/
def geqrfTriv : List ℚ → Nat → Nat → List ℚ × List ℚ :=
  fun d _ n => (d, List.replicate n 0)

theorem Factorize_preserves_caller_witness :
    (0:Nat) < 1 ∧
      (Heap.read ⟨[[(1:ℚ), 2], [1, 2]]⟩ 0 = Heap.read ⟨[[(1:ℚ), 2]]⟩ 0 ∧ (1:Nat) ≠ 0) :=
  ⟨Nat.zero_lt_one,
    Factorize_preserves_caller geqrfTriv ⟨[[(1:ℚ), 2]]⟩ ⟨2, 1, 0⟩
      ⟨[[(1:ℚ), 2], [1, 2]]⟩ ⟨2, 1, 1⟩ [0] Nat.zero_lt_one rfl⟩

/-! ### C5 / C7: RFromQR leaves stale rows below the triangle -/

/-- C5: evaluation at a failing input.  For the 2×1 factor `[3; 4]` and
a destination already sized 2×1 with prior contents `[5; 7]`, `RFromQR`
reuses the storage but only copies the `c×c` triangular view, so the
below-triangle entry `(1,0)` keeps its stale value 7 instead of the 0
the claim (and qr.go's own doc, "extracts the m×n upper trapezoidal
matrix") requires. -/
theorem RFromQR_stale_row_surviving :
    RFromQR ⟨⟨2, 1, 1, [3, 4]⟩, [0]⟩ ⟨2, 1, 1, [5, 7]⟩ = ⟨2, 1, 1, [3, 7]⟩ ∧
      (RFromQR ⟨⟨2, 1, 1, [3, 4]⟩, [0]⟩ ⟨2, 1, 1, [5, 7]⟩).get 1 0 ≠ 0 := by
  constructor
  · rfl
  · decide

/-- C7: evaluation at a failing input.  Extracting R from the 2×1
factor `[2; 9]` into a pre-sized 2×1 destination with prior contents
`[1; 6]` yields `[2; 6]`, while the same extraction into a fresh
destination yields `[2; 0]`: storage-reuse idempotence fails for
`RFromQR` whenever the factor has more rows than columns. -/
theorem RFromQR_reuse_not_idempotent :
    RFromQR ⟨⟨2, 1, 1, [2, 9]⟩, [0]⟩ ⟨2, 1, 1, [1, 6]⟩ ≠
      RFromQR ⟨⟨2, 1, 1, [2, 9]⟩, [0]⟩ ⟨0, 0, 0, []⟩ := by
  decide

/-! ### C8: pool buffers are not released on every exit path -/

/-- C8: evaluation at failing inputs.  `QFromQR` acquires `qCopy` from
the workspace pool and returns without releasing it (1 acquisition, 0
releases), and `SolveQR` skips `putWorkspace(x)` on the
conditioning-failure return (here: a singular 1×1 factor), so
acquisitions do not equal releases on those calls. -/
theorem workspace_release_mismatch :
    (QFromQR ⟨⟨1, 1, 1, [2]⟩, [0]⟩ ⟨0, 0, 0, []⟩ (fun _ => 0)).2 = (1, 0) ∧
      SolveQR ⟨⟨1, 1, 1, [0]⟩, [0]⟩ false ⟨1, 1, 1, [1]⟩ ⟨0, 0, 0, []⟩ (fun _ => 0) =
        some (.error .conditionInf, 1, 0) := by
  constructor
  · rfl
  · rfl

/-! ### C9: the vector solver delegates to the matrix solver -/

/-- C9: `SolveQRVec` resizes the destination vector to `m` (if trans)
or `n`, reinterprets destination and right-hand side as single-column
matrices sharing the same underlying storage (no copy: `vecAsDense`
returns the vector's own data and increment), and returns exactly the
result of `SolveQR` on those. -/
theorem SolveQRVec_delegates (rep : QR) (trans : Bool) (b v : GVec)
    (stale : Nat → ℚ) :
    SolveQRVec rep trans b v stale =
      SolveQR rep trans (vecAsDense b)
        (vecAsDense (vreuseAs v (if trans then rep.qr.rows else rep.qr.cols))) stale ∧
    (vecAsDense b).data = b.data ∧ (vecAsDense b).rows = b.n ∧
      (vecAsDense b).cols = 1 ∧ (vecAsDense b).stride = b.inc ∧
    (∀ w : GVec, (vecAsDense w).data = w.data) ∧
    (vreuseAs v (if trans then rep.qr.rows else rep.qr.cols)).n =
      (if trans then rep.qr.rows else rep.qr.cols) := by
  refine ⟨rfl, rfl, rfl, rfl, rfl, fun w => rfl, ?_⟩
  generalize (if trans then rep.qr.rows else rep.qr.cols) = L
  unfold vreuseAs
  split
  · next hc => exact hc.1
  · rfl

/-! ### C6: QFromQR computes the ascending reflector product -/

/-- The ascending product of the first `t` elementary reflectors. -/
def Pprod (rep : QR) (t : Nat) : Matrix (Fin rep.qr.rows) (Fin rep.qr.rows) ℚ :=
  ((List.range t).map fun i => Hm rep i).prod

theorem Pprod_zero (rep : QR) : Pprod rep 0 = 1 := rfl

theorem Pprod_succ (rep : QR) (t : Nat) :
    Pprod rep (t + 1) = Pprod rep t * Hm rep t := by
  unfold Pprod
  rw [List.range_succ, List.map_append, List.prod_append]
  simp

/-- Loop invariant of `QFromQR`'s reflector accumulation: after `t`
iterations the running estimate holds the product of the first `t`
reflectors, and both buffers keep their `m×m` shape. -/
def QInv (rep : QR) (t : Nat) (st : GDense × GDense) : Prop :=
  st.1.rows = rep.qr.rows ∧ st.1.cols = rep.qr.rows ∧ st.1.WF ∧
  st.2.rows = rep.qr.rows ∧ st.2.cols = rep.qr.rows ∧ st.2.WF ∧
  ∀ i j (hi : i < rep.qr.rows) (hj : j < rep.qr.rows),
    st.1.get i j = Pprod rep t ⟨i, hi⟩ ⟨j, hj⟩

theorem qStep_inv (rep : QR) (t : Nat) {st : GDense × GDense}
    (h : QInv rep t st) : QInv rep (t + 1) (qStep rep st t) := by
  obtain ⟨h1r, h1c, h1w, h2r, h2c, h2w, hval⟩ := h
  have hh0w := WF_mkDense rep.qr.rows rep.qr.rows
    (fun a b => if a = b then (1:ℚ) else 0)
  have hger : ∀ a b (ha : a < rep.qr.rows) (hb : b < rep.qr.rows),
      (gerFlat (-(rep.tau.getD t 0)) (vRefl rep t) (vRefl rep t)
        (mkDense rep.qr.rows rep.qr.rows fun a b => if a = b then 1 else 0)).get a b =
        Hm rep t ⟨a, ha⟩ ⟨b, hb⟩ := by
    intro a b ha hb
    unfold gerFlat
    rw [get_inplaceR hh0w _ ha hb, get_mkDense _ ha hb]
    unfold Hm
    rw [Matrix.sub_apply, Matrix.smul_apply, Matrix.vecMulVec_apply, Matrix.one_apply]
    simp only [Fin.mk.injEq, smul_eq_mul]
    ring
  have hqc : ∀ a b, a < rep.qr.rows → b < rep.qr.rows →
      (copyInto st.2 (fun a b => st.1.get a b) st.1.rows st.1.cols).get a b =
        st.1.get a b := by
    intro a b ha hb
    rw [get_copyInto h2w _ _ _ (by rw [h2r]; exact ha) (by rw [h2c]; exact hb),
      if_pos ⟨by rw [h1r]; exact ha, by rw [h1c]; exact hb⟩]
  refine ⟨h1r, h1c, WF_inplaceR h1w _, h2r, h2c, WF_inplaceR h2w _, ?_⟩
  intro i j hi hj
  have hstep : (qStep rep st t).1.get i j =
      1 * sumR (copyInto st.2 (fun a b => st.1.get a b) st.1.rows st.1.cols).cols
        (fun l => (copyInto st.2 (fun a b => st.1.get a b) st.1.rows st.1.cols).get i l *
          (gerFlat (-(rep.tau.getD t 0)) (vRefl rep t) (vRefl rep t)
            (mkDense rep.qr.rows rep.qr.rows fun a b => if a = b then 1 else 0)).get l j) +
        0 * st.1.get i j :=
    get_inplaceR h1w _ (by rw [h1r]; exact hi) (by rw [h1c]; exact hj)
  rw [hstep, one_mul, zero_mul, add_zero,
    show (copyInto st.2 (fun a b => st.1.get a b) st.1.rows st.1.cols).cols =
      rep.qr.rows from h2c]
  have hsum : sumR rep.qr.rows
      (fun l => (copyInto st.2 (fun a b => st.1.get a b) st.1.rows st.1.cols).get i l *
        (gerFlat (-(rep.tau.getD t 0)) (vRefl rep t) (vRefl rep t)
          (mkDense rep.qr.rows rep.qr.rows fun a b => if a = b then 1 else 0)).get l j) =
      ∑ l : Fin rep.qr.rows, Pprod rep t ⟨i, hi⟩ l * Hm rep t l ⟨j, hj⟩ := by
    rw [sumR, ← Fin.sum_univ_eq_sum_range]
    refine Finset.sum_congr rfl fun l _ => ?_
    rw [hqc i l hi l.isLt, hval i l hi l.isLt, hger l j l.isLt hj, Fin.eta]
  rw [hsum, ← Matrix.mul_apply, ← Pprod_succ]

theorem foldl_qStep_inv (rep : QR) {st0 : GDense × GDense}
    (h0 : QInv rep 0 st0) (k : Nat) :
    QInv rep k ((List.range k).foldl (qStep rep) st0) := by
  induction k with
  | zero => exact h0
  | succ k ih =>
    rw [List.range_succ, List.foldl_append, List.foldl_cons, List.foldl_nil]
    exact qStep_inv rep k ih

/-- C6: for every QR representation, `QFromQR` resizes the destination
to `m×m`, initializes it to the identity by explicit element
assignment, and then accumulates the reflectors in strictly ascending
index order, right-multiplying the running estimate by
`H_i = I − scalars[i]·v_i·v_iᵗ` (built by the rank-1-update kernel and
applied by the matrix-multiply kernel): the result is the ascending
product `H_0 ⋯ H_(k-1)`, `k = min(m, n)`. -/
theorem QFromQR_ascending_reflector_product (rep : QR) (dst : GDense)
    (stale : Nat → ℚ) (hdst : dst.WF) :
    (QFromQR rep dst stale).1.rows = rep.qr.rows ∧
    (QFromQR rep dst stale).1.cols = rep.qr.rows ∧
    ∀ i j (hi : i < rep.qr.rows) (hj : j < rep.qr.rows),
      (QFromQR rep dst stale).1.get i j = Qm rep ⟨i, hi⟩ ⟨j, hj⟩ := by
  have hini : QInv rep 0
      ((reuseAs dst rep.qr.rows rep.qr.rows).inplaceR fun i j _ => if i = j then 1 else 0,
        getWorkspace rep.qr.rows rep.qr.rows stale) := by
    refine ⟨?_, ?_, WF_inplaceR (WF_reuseAs hdst _ _) _, rfl, rfl,
      WF_getWorkspace _ _ _, ?_⟩
    · show (reuseAs dst _ _).rows = _
      exact reuseAs_rows dst _ _
    · show (reuseAs dst _ _).cols = _
      exact reuseAs_cols dst _ _
    · intro i j hi hj
      rw [get_inplaceR (WF_reuseAs hdst _ _) _
        (by rw [reuseAs_rows]; exact hi) (by rw [reuseAs_cols]; exact hj),
        Pprod_zero, Matrix.one_apply]
      simp [Fin.mk.injEq]
  have hfin := foldl_qStep_inv rep hini (min rep.qr.rows rep.qr.cols)
  obtain ⟨hr, hc, -, -, -, -, hval⟩ := hfin
  exact ⟨hr, hc, fun i j hi hj => hval i j hi hj⟩

theorem QFromQR_ascending_reflector_product_witness :
    GDense.WF ⟨0, 0, 0, []⟩ ∧
      (QFromQR ⟨⟨2, 1, 1, [3, 4]⟩, [1/2]⟩ ⟨0, 0, 0, []⟩ (fun _ => 0)).1.rows = 2 :=
  ⟨⟨le_rfl, rfl⟩,
    (QFromQR_ascending_reflector_product ⟨⟨2, 1, 1, [3, 4]⟩, [1/2]⟩ ⟨0, 0, 0, []⟩
      (fun _ => 0) ⟨le_rfl, rfl⟩).1⟩

/-! ### Evaluation lemmas for the solver -/

theorem copyInto_rows (d : GDense) (f sr sc) : (copyInto d f sr sc).rows = d.rows := rfl
theorem copyInto_cols (d : GDense) (f sr sc) : (copyInto d f sr sc).cols = d.cols := rfl
theorem ormqrFlat_rows (tr rep X) : (ormqrFlat tr rep X).rows = X.rows := rfl
theorem ormqrFlat_cols (tr rep X) : (ormqrFlat tr rep X).cols = X.cols := rfl

theorem trtrsFlat_eq_none {T : GDense} {N : Nat} (trans : Bool) (X : GDense)
    (hz : hasZeroDiag T N = true) : trtrsFlat trans T N X = none := by
  unfold trtrsFlat
  rw [hz]
  rfl

theorem trtrsFlat_eq_some {T : GDense} {N : Nat} (trans : Bool) {X : GDense}
    (hz : hasZeroDiag T N = false) :
    trtrsFlat trans T N X = some (trtrsApply trans T N X) := by
  unfold trtrsFlat
  rw [hz]
  rfl

theorem solveCore_eq_error (rep : QR) (trans : Bool) (b m1 : GDense)
    (stale : Nat → ℚ) (hz : hasZeroDiag rep.qr rep.qr.cols = true) :
    solveCore rep trans b m1 stale = (.error .conditionInf, 1, 0) := by
  unfold solveCore
  cases trans <;> simp [trtrsFlat_eq_none _ _ hz]

theorem solveCore_eq_ok (rep : QR) (trans : Bool) (b m1 : GDense)
    (stale : Nat → ℚ) (hz : hasZeroDiag rep.qr rep.qr.cols = false) :
    ∃ X, solveCore rep trans b m1 stale = (.ok X, 1, 1) := by
  unfold solveCore
  cases trans <;> simp [trtrsFlat_eq_some _ hz]

theorem SolveQR_eq_core (rep : QR) (trans : Bool) (b dst : GDense)
    (stale : Nat → ℚ)
    (hbr : b.rows = if trans then rep.qr.cols else rep.qr.rows) :
    SolveQR rep trans b dst stale =
      some (solveCore rep trans b
        (reuseAs dst (if trans then rep.qr.rows else rep.qr.cols) b.cols) stale) := by
  cases trans
  · have hbr' : b.rows = rep.qr.rows := hbr
    simp [SolveQR, hbr']
  · have hbr' : b.rows = rep.qr.cols := hbr
    simp [SolveQR, hbr']

/-! ### C4: the conditioning failure is the only recoverable failure -/

/-- C4: for every shape-valid call, `SolveQR` returns the explicit
error value `Condition(+∞)` exactly when the triangular-solve kernel
reports `R` (or `Rᵗ`) singular — a zero diagonal entry — and never
panics in that situation; on non-singular triangular solves it returns
no error. -/
theorem SolveQR_condition_iff_singular (rep : QR) (trans : Bool)
    (b dst : GDense) (stale : Nat → ℚ)
    (hbr : b.rows = if trans then rep.qr.cols else rep.qr.rows) :
    ((∃ p, SolveQR rep trans b dst stale = some p ∧
        p.1 = Except.error QRError.conditionInf) ↔
      ∃ i < rep.qr.cols, rep.qr.get i i = 0) ∧
    ((¬ ∃ i < rep.qr.cols, rep.qr.get i i = 0) →
      ∃ X, SolveQR rep trans b dst stale = some (Except.ok X, 1, 1)) := by
  rw [SolveQR_eq_core rep trans b dst stale hbr]
  by_cases hz : hasZeroDiag rep.qr rep.qr.cols = true
  · rw [solveCore_eq_error rep trans b _ stale hz]
    constructor
    · exact iff_of_true ⟨_, rfl, rfl⟩ ((hasZeroDiag_iff _ _).mp hz)
    · intro hns
      exact absurd ((hasZeroDiag_iff _ _).mp hz) hns
  · have hz' : hasZeroDiag rep.qr rep.qr.cols = false := by
      simpa using hz
    obtain ⟨X, hX⟩ := solveCore_eq_ok rep trans b
      (reuseAs dst (if trans then rep.qr.rows else rep.qr.cols) b.cols) stale hz'
    rw [hX]
    constructor
    · constructor
      · rintro ⟨p, hp, hperr⟩
        rw [Option.some_inj] at hp
        rw [← hp] at hperr
        exact absurd hperr (by simp)
      · intro hsing
        exact absurd ((hasZeroDiag_iff _ _).mpr hsing) (by simp [hz'])
    · intro _
      exact ⟨X, rfl⟩

theorem SolveQR_condition_iff_singular_witness :
    (GDense.rows ⟨1, 1, 1, [3]⟩ =
      if true then GDense.cols ⟨2, 1, 1, [0, 5]⟩ else GDense.rows ⟨2, 1, 1, [0, 5]⟩) ∧
    ∃ p, SolveQR ⟨⟨2, 1, 1, [0, 5]⟩, [0]⟩ true ⟨1, 1, 1, [3]⟩ ⟨0, 0, 0, []⟩
        (fun _ => 0) = some p ∧ p.1 = Except.error QRError.conditionInf :=
  ⟨rfl, (SolveQR_condition_iff_singular ⟨⟨2, 1, 1, [0, 5]⟩, [0]⟩ true ⟨1, 1, 1, [3]⟩
    ⟨0, 0, 0, []⟩ (fun _ => 0) rfl).1.mpr ⟨0, Nat.zero_lt_one, rfl⟩⟩

theorem trtrsApply_rows (tr T N X) : (trtrsApply tr T N X).rows = X.rows := rfl
theorem trtrsApply_cols (tr T N X) : (trtrsApply tr T N X).cols = X.cols := rfl

theorem solveCore_false_entries (rep : QR) (b m1 : GDense) (stale : Nat → ℚ)
    (hm1w : m1.WF) (hm1r : m1.rows = rep.qr.cols) (hm1c : m1.cols = b.cols)
    (hrc : rep.qr.cols ≤ rep.qr.rows) (hbr : b.rows = rep.qr.rows)
    (hz : hasZeroDiag rep.qr rep.qr.cols = false) :
    ∃ X, solveCore rep false b m1 stale = (.ok X, 1, 1) ∧
      X.rows = rep.qr.cols ∧ X.cols = b.cols ∧
      ∀ i j, i < rep.qr.cols → j < b.cols →
        X.get i j = triSol false rep.qr.get rep.qr.cols
          (fun t => sumR rep.qr.rows fun l =>
            QmF rep true t l * specScratch b l j) i := by
  refine ⟨copyInto m1
      (trtrsApply false rep.qr rep.qr.cols
        (ormqrFlat true rep (solveScratch rep b stale))).get
      (trtrsApply false rep.qr rep.qr.cols
        (ormqrFlat true rep (solveScratch rep b stale))).rows
      (trtrsApply false rep.qr rep.qr.cols
        (ormqrFlat true rep (solveScratch rep b stale))).cols, ?_, ?_, ?_, ?_⟩
  · simp only [solveCore]
    rw [trtrsFlat_eq_some false hz]
    rfl
  · rw [copyInto_rows]
    exact hm1r
  · rw [copyInto_cols]
    exact hm1c
  · intro i j hi hj
    set x1 : GDense := solveScratch rep b stale with hx1
    set x2 : GDense := ormqrFlat true rep x1 with hx2
    have hwsw : (getWorkspace (max rep.qr.rows rep.qr.cols) b.cols stale).WF :=
      WF_getWorkspace _ _ _
    have hx1w : x1.WF := WF_inplaceR hwsw _
    have hx2w : x2.WF := WF_inplaceR hx1w _
    have hx1get : ∀ l, l < rep.qr.rows → x1.get l j = specScratch b l j := by
      intro l hl
      rw [hx1, solveScratch, get_copyInto hwsw _ _ _
        (by show l < max rep.qr.rows rep.qr.cols; omega) (by exact hj),
        specScratch]
      rw [if_pos ⟨by omega, hj⟩, if_pos ⟨by omega, hj⟩]
    have hx2get : ∀ t, t < rep.qr.rows →
        x2.get t j = sumR rep.qr.rows fun l => QmF rep true t l * specScratch b l j := by
      intro t ht
      rw [hx2, ormqrFlat, get_inplaceR hx1w _
        (by show t < max rep.qr.rows rep.qr.cols; omega) (by exact hj),
        if_pos ht]
      exact sumR_congr fun l hl => by rw [hx1get l hl]
    rw [get_copyInto hm1w _ _ _ (by rw [hm1r]; exact hi) (by rw [hm1c]; exact hj),
      if_pos ⟨by rw [trtrsApply_rows]
                 show i < max rep.qr.rows rep.qr.cols
                 omega,
              by rw [trtrsApply_cols]
                 exact hj⟩]
    rw [trtrsApply, get_inplaceR hx2w _
      (by show i < max rep.qr.rows rep.qr.cols; omega) (by exact hj),
      if_pos hi]
    exact triSol_congr false rep.qr.get rep.qr.cols
      (fun l hl => hx2get l (by omega)) i

theorem solveCore_true_entries (rep : QR) (b m1 : GDense) (stale : Nat → ℚ)
    (hm1w : m1.WF) (hm1r : m1.rows = rep.qr.rows) (hm1c : m1.cols = b.cols)
    (hrc : rep.qr.cols ≤ rep.qr.rows) (hbr : b.rows = rep.qr.cols)
    (hz : hasZeroDiag rep.qr rep.qr.cols = false) :
    ∃ X, solveCore rep true b m1 stale = (.ok X, 1, 1) ∧
      X.rows = rep.qr.rows ∧ X.cols = b.cols ∧
      ∀ i j, i < rep.qr.rows → j < b.cols →
        X.get i j = sumR rep.qr.rows fun l => QmF rep false i l *
          (if l < rep.qr.cols then
            triSol true rep.qr.get rep.qr.cols (fun t => specScratch b t j) l
          else 0) := by
  refine ⟨copyInto m1
      (ormqrFlat false rep
        ((trtrsApply true rep.qr rep.qr.cols (solveScratch rep b stale)).inplaceR
          fun i _ old => if rep.qr.cols ≤ i ∧ i < rep.qr.rows then 0 else old)).get
      (ormqrFlat false rep
        ((trtrsApply true rep.qr rep.qr.cols (solveScratch rep b stale)).inplaceR
          fun i _ old => if rep.qr.cols ≤ i ∧ i < rep.qr.rows then 0 else old)).rows
      (ormqrFlat false rep
        ((trtrsApply true rep.qr rep.qr.cols (solveScratch rep b stale)).inplaceR
          fun i _ old => if rep.qr.cols ≤ i ∧ i < rep.qr.rows then 0 else old)).cols,
      ?_, ?_, ?_, ?_⟩
  · simp only [solveCore]
    rw [trtrsFlat_eq_some true hz]
    rfl
  · rw [copyInto_rows]
    exact hm1r
  · rw [copyInto_cols]
    exact hm1c
  · intro i j hi hj
    set x1 : GDense := solveScratch rep b stale with hx1
    set x2 : GDense := trtrsApply true rep.qr rep.qr.cols x1 with hx2
    set x3 : GDense := x2.inplaceR
      (fun i _ old => if rep.qr.cols ≤ i ∧ i < rep.qr.rows then 0 else old) with hx3
    have hwsw : (getWorkspace (max rep.qr.rows rep.qr.cols) b.cols stale).WF :=
      WF_getWorkspace _ _ _
    have hx1w : x1.WF := WF_inplaceR hwsw _
    have hx2w : x2.WF := WF_inplaceR hx1w _
    have hx3w : x3.WF := WF_inplaceR hx2w _
    have hx1get : ∀ l, l < rep.qr.cols → x1.get l j = specScratch b l j := by
      intro l hl
      rw [hx1, solveScratch, get_copyInto hwsw _ _ _
        (by show l < max rep.qr.rows rep.qr.cols; omega) (by exact hj),
        specScratch]
      rw [if_pos ⟨by omega, hj⟩, if_pos ⟨by omega, hj⟩]
    have hx3get : ∀ l, l < rep.qr.rows →
        x3.get l j = (if l < rep.qr.cols then
          triSol true rep.qr.get rep.qr.cols (fun t => specScratch b t j) l
        else 0) := by
      intro l hl
      rw [hx3, get_inplaceR hx2w _
        (by show l < max rep.qr.rows rep.qr.cols; omega) (by exact hj)]
      by_cases hlc : l < rep.qr.cols
      · rw [if_neg (by omega), if_pos hlc, hx2, trtrsApply, get_inplaceR hx1w _
          (by show l < max rep.qr.rows rep.qr.cols; omega) (by exact hj),
          if_pos hlc]
        rw [triSol_congr true rep.qr.get rep.qr.cols
          (fun t ht => hx1get t ht) l]
      · rw [if_pos ⟨by omega, hl⟩, if_neg hlc]
    rw [get_copyInto hm1w _ _ _ (by rw [hm1r]; exact hi) (by rw [hm1c]; exact hj),
      if_pos ⟨by rw [ormqrFlat_rows]
                 show i < x3.rows
                 rw [hx3, inplaceR_rows, hx2, trtrsApply_rows]
                 show i < max rep.qr.rows rep.qr.cols
                 omega,
              by rw [ormqrFlat_cols]
                 exact hj⟩]
    rw [ormqrFlat, get_inplaceR hx3w _
      (by show i < max rep.qr.rows rep.qr.cols; omega) (by exact hj),
      if_pos hi]
    exact sumR_congr fun l hl => by rw [hx3get l hl]

/-! ### C2: SolveQR follows the spec's algorithm exactly -/

/-- C2: for every shape-valid call, `SolveQR` computes exactly what the
spec's words prescribe (`specSolveQR`, written from the spec, not the
source): with `trans = false` it left-multiplies the scratch copy of
`B` by the orthogonal factor's transpose and triangular-solves
`R·X = (first n rows of Qᵗ·B)` in place; with `trans = true` it
triangular-solves `Rᵗ·X′ = B` in place, zero-extends with `m−n` zero
rows, and left-multiplies by the orthogonal factor (not its
transpose).  `B` is first copied into an independently-owned scratch
buffer of size `max(m,n) × cols(B)` before any kernel runs
(`solveScratch`, the first step of `solveCore`). -/
theorem SolveQR_follows_spec_algorithm (rep : QR) (trans : Bool)
    (b dst : GDense) (stale : Nat → ℚ) (hdst : dst.WF)
    (hrc : rep.qr.cols ≤ rep.qr.rows)
    (hbr : b.rows = if trans then rep.qr.cols else rep.qr.rows) :
    match specSolveQR rep trans b with
    | .error e => SolveQR rep trans b dst stale = some (.error e, 1, 0)
    | .ok Xs =>
      ∃ X, SolveQR rep trans b dst stale = some (.ok X, 1, 1) ∧
        X.rows = (if trans then rep.qr.rows else rep.qr.cols) ∧
        X.cols = b.cols ∧
        ∀ i j, i < X.rows → j < X.cols → X.get i j = Xs i j := by
  by_cases hz : hasZeroDiag rep.qr rep.qr.cols = true
  · have hspec : specSolveQR rep trans b = .error .conditionInf := by
      simp only [specSolveQR, hz, if_true]
    rw [hspec]
    show SolveQR rep trans b dst stale = some (.error .conditionInf, 1, 0)
    rw [SolveQR_eq_core rep trans b dst stale hbr,
      solveCore_eq_error rep trans b _ stale hz]
  · have hz' : hasZeroDiag rep.qr rep.qr.cols = false := by simpa using hz
    cases trans
    · have hspec : specSolveQR rep false b = .ok (fun i j =>
          triSol false rep.qr.get rep.qr.cols
            (fun t => sumR rep.qr.rows fun l =>
              QmF rep true t l * specScratch b l j) i) := by
        simp only [specSolveQR, hz', Bool.false_eq_true, if_false]
      rw [hspec]
      show ∃ X, SolveQR rep false b dst stale = some (.ok X, 1, 1) ∧
        X.rows = rep.qr.cols ∧ X.cols = b.cols ∧
        ∀ i j, i < X.rows → j < X.cols →
          X.get i j = triSol false rep.qr.get rep.qr.cols
            (fun t => sumR rep.qr.rows fun l =>
              QmF rep true t l * specScratch b l j) i
      obtain ⟨X, hXeq, hXr, hXc, hXget⟩ :=
        solveCore_false_entries rep b (reuseAs dst rep.qr.cols b.cols) stale
          (WF_reuseAs hdst _ _) (reuseAs_rows _ _ _) (reuseAs_cols _ _ _)
          hrc hbr hz'
      refine ⟨X, ?_, hXr, hXc, ?_⟩
      · rw [SolveQR_eq_core rep false b dst stale hbr]
        show some (solveCore rep false b (reuseAs dst rep.qr.cols b.cols) stale) = _
        rw [hXeq]
      · intro i j hi hj
        rw [hXr] at hi
        rw [hXc] at hj
        exact hXget i j hi hj
    · have hspec : specSolveQR rep true b = .ok (fun i j =>
          sumR rep.qr.rows fun l => QmF rep false i l *
            (if l < rep.qr.cols then
              triSol true rep.qr.get rep.qr.cols (fun t => specScratch b t j) l
            else 0)) := by
        simp [specSolveQR, hz']
      rw [hspec]
      show ∃ X, SolveQR rep true b dst stale = some (.ok X, 1, 1) ∧
        X.rows = rep.qr.rows ∧ X.cols = b.cols ∧
        ∀ i j, i < X.rows → j < X.cols →
          X.get i j = sumR rep.qr.rows fun l => QmF rep false i l *
            (if l < rep.qr.cols then
              triSol true rep.qr.get rep.qr.cols (fun t => specScratch b t j) l
            else 0)
      obtain ⟨X, hXeq, hXr, hXc, hXget⟩ :=
        solveCore_true_entries rep b (reuseAs dst rep.qr.rows b.cols) stale
          (WF_reuseAs hdst _ _) (reuseAs_rows _ _ _) (reuseAs_cols _ _ _)
          hrc hbr hz'
      refine ⟨X, ?_, hXr, hXc, ?_⟩
      · rw [SolveQR_eq_core rep true b dst stale hbr]
        show some (solveCore rep true b (reuseAs dst rep.qr.rows b.cols) stale) = _
        rw [hXeq]
      · intro i j hi hj
        rw [hXr] at hi
        rw [hXc] at hj
        exact hXget i j hi hj

theorem SolveQR_follows_spec_algorithm_witness :
    GDense.WF ⟨0, 0, 0, []⟩ ∧
    ∃ X, SolveQR ⟨⟨2, 1, 1, [2, 4]⟩, [0]⟩ false ⟨2, 1, 1, [10, 6]⟩ ⟨0, 0, 0, []⟩
        (fun _ => 0) = some (.ok X, 1, 1) := by
  refine ⟨⟨le_rfl, rfl⟩, ?_⟩
  have h := SolveQR_follows_spec_algorithm ⟨⟨2, 1, 1, [2, 4]⟩, [0]⟩ false
    ⟨2, 1, 1, [10, 6]⟩ ⟨0, 0, 0, []⟩ (fun _ => 0) ⟨le_rfl, rfl⟩ (by decide) rfl
  obtain ⟨X, hX, -, -, -⟩ := h
  exact ⟨X, hX⟩
